import Mathlib

/-!
# pyperf `read_file.c`: the function `readen`

A shallow embedding of `readen` (src/pyperf/read_file.c) and of the C library
services it calls, followed by theorems about what `readen` returns and which
resources it holds.

The library is not part of the repository. Its services are modelled after
their standard descriptions: `fopen`, `exit` and `strtoull` after ISO C,
`getline` after POSIX and, where POSIX is silent (what a call that meets
end-of-file does to the buffer), after glibc, the library that the
`_GNU_SOURCE` of the file selects. `strtoull` runs in the "C" locale. Read
errors and allocation failures are assumed not to happen.

Bytes of a file are modelled as `Char`; a file is the list of its bytes.
-/

namespace Pyperf

/-! ## The C library as seen by `readen` -/

/-- The line delimiter used by `getline`. -/
def NL : Char := '\n'

/-- The C string terminator. -/
def NUL : Char := Char.ofNat 0

/-- Value of the library constant `ULLONG_MAX` of `limits.h` for the 64-bit
`unsigned long long` that `readen` returns. -/
def ULLONG_MAX : Nat := 2 ^ 64 - 1

/-- Value of the library constant `EXIT_FAILURE` of `stdlib.h`: a non-zero
status, 1 in glibc and musl. -/
def EXIT_FAILURE : Nat := 1

/-- C `isspace` in the "C" locale: space, `\t`, `\n`, `\v`, `\f`, `\r`. -/
def isspace (c : Char) : Bool :=
  c.toNat == 32 || (9 ≤ c.toNat && c.toNat ≤ 13)

/-- C `isdigit`. -/
def isdigit (c : Char) : Bool :=
  48 ≤ c.toNat && c.toNat ≤ 57

/-- Numeric value of a digit character (`c - '0'`). -/
def digitVal (c : Char) : Nat := c.toNat - 48

/-- The variable `char *line` of `readen`: `NULL`, or a buffer and the bytes it
holds (the terminator that `getline` appends after a line is implicit). -/
inductive LinePtr where
  | null : LinePtr
  | str (bytes : List Char) : LinePtr
  deriving DecidableEq, Repr

/-- Resource events performed by a call. -/
inductive Event where
  | fopen : Event
  | alloc : Event
  | free : Event
  | fclose : Event
  deriving DecidableEq, Repr

/-- How a call of `readen` ends: it returns a value, the process exits with a
status, or the call has no defined behaviour (`strtoull` of a null pointer;
`readen_defined` shows that no call gets there). -/
inductive Outcome where
  | returned (data : Nat) : Outcome
  | exited (status : Nat) : Outcome
  | undefined : Outcome
  deriving DecidableEq, Repr

/-- The environment of a call: `fopen path "r"` either fails (`none`) or gives a
stream over the bytes of the file; `heap` is what a buffer freshly allocated by
`getline` holds before anything is written to it, read as the bytes up to the
end of the accessible memory (a C string in it ends at its first NUL). -/
structure World where
  fopen : List Char → Option (List Char)
  heap : List Char

/-- Bytes of the next line of a stream, delimiter included, and the rest of
the stream. -/
def takeLine : List Char → List Char × List Char
  | [] => ([], [])
  | c :: cs =>
    if c = NL then ([c], cs)
    else ((takeLine cs).1.cons c, (takeLine cs).2)

/-- One call `getline(&line, &len, fd)` of the library: the return value
(`-1` at end-of-file, else the number of bytes read), the new `line`, the rest
of the stream and the allocation it performed, if any. A call with `line`
`NULL` allocates the buffer first, also when the stream is already at
end-of-file: the call then returns `-1` and leaves the new buffer unwritten,
holding `heap`. At end-of-file a buffer that already exists is left as it is,
which is what lets `readen` find the last line in `line` after the loop. The
capacity `len` has no influence on any of these and is not modelled. -/
def getline (w : World) (line : LinePtr) (fd : List Char) :
    Int × LinePtr × List Char × List Event :=
  match fd with
  | [] =>
    match line with
    | LinePtr.null => (-1, LinePtr.str w.heap, [], [Event.alloc])
    | l => (-1, l, [], [])
  | c :: cs =>
    (((takeLine (c :: cs)).1.length : Int), LinePtr.str (takeLine (c :: cs)).1,
      (takeLine (c :: cs)).2,
      match line with
      | LinePtr.null => [Event.alloc]
      | _ => [])

/-- The loop `while ((read = getline(&line, &len, fd)) != -1) {}`, bounded by
`fuel` iterations; `none` when the fuel runs out before `getline` returns
`-1`. Gives the final `line` and the allocations performed. -/
def readLoop (w : World) : Nat → LinePtr → List Char → Option (LinePtr × List Event)
  | 0, _, _ => none
  | fuel + 1, line, fd =>
    match getline w line fd with
    | (read, line1, fd1, ev) =>
      if read ≠ -1 then
        match readLoop w fuel line1 fd1 with
        | some (l, evs) => some (l, ev ++ evs)
        | none => none
      else some (line1, ev)

/-- The C string a buffer holds: its bytes up to the first NUL. -/
def cstr : List Char → List Char
  | [] => []
  | c :: cs => if c = NUL then [] else c :: cstr cs

/-- Skip leading white space. -/
def skipSpace : List Char → List Char
  | [] => []
  | c :: cs => if isspace c then skipSpace cs else c :: cs

/-- The digit loop of `strtoull` in base 10, as libraries implement it, with
accumulator `i` and the sticky flag `overflow`: a digit that would take
`i * 10 + c` past `ULLONG_MAX` sets the flag and leaves `i`; the loop ends at
the first byte that is not a digit. -/
def digitLoop : List Char → Nat → Bool → Nat × Bool
  | [], i, overflow => (i, overflow)
  | c :: cs, i, overflow =>
    if isdigit c then
      if i > ULLONG_MAX / 10 ∨ (i = ULLONG_MAX / 10 ∧ digitVal c > ULLONG_MAX % 10) then
        digitLoop cs i true
      else digitLoop cs (i * 10 + digitVal c) overflow
    else (i, overflow)

/-- Conversion of the text after white space and sign: no digit gives 0, an
overflow gives `ULLONG_MAX`, otherwise the value, negated modulo `2 ^ 64`
when a minus sign was read. -/
def convert (negative : Bool) (s : List Char) : Nat :=
  match s with
  | [] => 0
  | c :: cs =>
    if isdigit c then
      if (digitLoop (c :: cs) 0 false).2 then ULLONG_MAX
      else if negative then (2 ^ 64 - (digitLoop (c :: cs) 0 false).1) % 2 ^ 64
      else (digitLoop (c :: cs) 0 false).1
    else 0

/-- The library call `strtoull(s, NULL, 10)` on a string (ISO C 7.22.1.4):
white space is skipped, one optional sign is read, then the digits are
converted. -/
def strtoull (s : List Char) : Nat :=
  match skipSpace s with
  | [] => 0
  | c :: cs =>
    if c = '-' then convert true cs
    else if c = '+' then convert false cs
    else convert false (c :: cs)

/-! ## `readen` -/

/-- Result of a call: how it ended and the resource events up to that point. -/
structure Result where
  outcome : Outcome
  trace : List Event
  deriving DecidableEq, Repr

/-- The call `strtoull(line, NULL, 10)` on the pointer `line`: the conversion
of the C string in the buffer, and no defined result for a null pointer. -/
def strtoullPtr : LinePtr → Option Nat
  | LinePtr.null => none
  | LinePtr.str b => some (strtoull (cstr b))

/-- The statement `if (line) free(line);`. -/
def freeLine : LinePtr → List Event
  | LinePtr.null => []
  | LinePtr.str _ => [Event.free]

/-- The function `readen(path)` of read_file.c, statement by statement.
`fopen` failing ends the process with `exit(EXIT_FAILURE)`. Otherwise the
`getline` loop runs to end-of-file, `data = strtoull(line, NULL, 10)` is
computed, `if (line) free(line)` and `fclose(fd)` release the buffer and the
stream, and `data` is returned. The loop is given `length + 1` iterations,
which always suffice (`readLoop_fuel`), and leaves `line` non-null
(`readLoop_ne_null`): the two branches that end in `Outcome.undefined` are
unreachable. -/
def readen (w : World) (path : List Char) : Result :=
  match w.fopen path with
  | none => ⟨Outcome.exited EXIT_FAILURE, []⟩
  | some fd =>
    match readLoop w (fd.length + 1) LinePtr.null fd with
    | none => ⟨Outcome.undefined, [Event.fopen]⟩
    | some (line, evs) =>
      match strtoullPtr line with
      | none => ⟨Outcome.undefined, Event.fopen :: evs⟩
      | some data =>
        ⟨Outcome.returned data, Event.fopen :: (evs ++ freeLine line ++ [Event.fclose])⟩

/-- A world with a single readable file: every path opens on `content`. -/
def fileWorld (content : List Char) (heap : List Char) : World :=
  ⟨fun _ => some content, heap⟩

/-- A world in which no path can be opened. -/
def noFileWorld (heap : List Char) : World :=
  ⟨fun _ => none, heap⟩

/-! ## Vocabulary of the specification -/

/-- A run of zero or more complete lines: empty, or ending with the
delimiter. -/
def CompleteLines (p : List Char) : Prop :=
  p = [] ∨ p.getLast? = some NL

instance (p : List Char) : Decidable (CompleteLines p) := by
  unfold CompleteLines; infer_instance

/-- A single line: not empty, and with no delimiter before its last byte. -/
def IsLine (l : List Char) : Prop :=
  l ≠ [] ∧ NL ∉ l.dropLast

instance (l : List Char) : Decidable (IsLine l) := by
  unfold IsLine; infer_instance

/-- The final content segment of a file: the bytes after its last
delimiter. -/
def lastSegment (c : List Char) : List Char :=
  (c.reverse.takeWhile (fun x => x != NL)).reverse

/-- The last line of a content in the words of the specification: the final
delimiter-terminated or end-of-file-terminated segment, that is the last byte
of the content preceded by the bytes that follow the last earlier
delimiter. -/
def lastLine (c : List Char) : List Char :=
  match c.reverse with
  | [] => []
  | x :: r => (r.takeWhile (fun y => y != NL)).reverse ++ [x]

/-- Value of a string of decimal digits, most significant digit first, from
the accumulator `acc`. -/
def decimalFrom (acc : Nat) (ds : List Char) : Nat :=
  ds.foldl (fun a c => a * 10 + digitVal c) acc

/-- Value of a string of decimal digits, most significant digit first. -/
def decimalValue (ds : List Char) : Nat := decimalFrom 0 ds

/-- The text stops the digit loop: it is empty or starts with a byte that is
not a digit. -/
def NoDigitAhead (t : List Char) : Prop :=
  ∀ c ∈ t.head?, isdigit c = false

instance (t : List Char) : Decidable (NoDigitAhead t) := by
  unfold NoDigitAhead; infer_instance

/-- Number of streams a trace leaves open. -/
def openHandles (tr : List Event) : Int :=
  (tr.count Event.fopen : Int) - (tr.count Event.fclose : Int)

/-- Number of line buffers a trace leaves allocated. -/
def liveBuffers (tr : List Event) : Int :=
  (tr.count Event.alloc : Int) - (tr.count Event.free : Int)

/-- The allocation performed by the first successful `getline`. -/
def allocOf : LinePtr → List Event
  | LinePtr.null => [Event.alloc]
  | _ => []

/-! ## Lines and the `getline` loop -/

theorem completeLines_iff (p : List Char) :
    CompleteLines p ↔ p = [] ∨ ∃ q, p = q ++ [NL] := by
  unfold CompleteLines
  rw [List.getLast?_eq_some_iff]

theorem takeLine_append (p : List Char) :
    (takeLine p).1 ++ (takeLine p).2 = p := by
  induction p with
  | nil => rfl
  | cons c cs ih =>
    by_cases h : c = NL
    · simp [takeLine, h]
    · simp [takeLine, h, ih]

theorem takeLine_fst_ne_nil (c : Char) (cs : List Char) :
    (takeLine (c :: cs)).1 ≠ [] := by
  by_cases h : c = NL <;> simp [takeLine, h]

theorem takeLine_length (p : List Char) :
    (takeLine p).1.length + (takeLine p).2.length = p.length := by
  have h := congrArg List.length (takeLine_append p)
  simpa using h

theorem takeLine_concat_of_not_mem (a : List Char) (x : Char) (h : NL ∉ a) :
    takeLine (a ++ [x]) = (a ++ [x], []) := by
  induction a with
  | nil =>
    by_cases hx : x = NL <;> simp [takeLine, hx]
  | cons c cs ih =>
    have hc : c ≠ NL := fun e => h (by simp [e])
    have hcs : NL ∉ cs := fun e => h (by simp [e])
    simp [takeLine, hc, ih hcs]

theorem takeLine_of_isLine (l : List Char) (h : IsLine l) :
    takeLine l = (l, []) := by
  obtain ⟨hne, hmem⟩ := h
  have e := List.dropLast_concat_getLast hne
  rw [← e]
  exact takeLine_concat_of_not_mem _ _ hmem

theorem takeLine_append_of_mem (p q : List Char) (h : NL ∈ p) :
    takeLine (p ++ q) = ((takeLine p).1, (takeLine p).2 ++ q) := by
  induction p with
  | nil => simp at h
  | cons c cs ih =>
    by_cases hc : c = NL
    · simp [takeLine, hc]
    · have hcs : NL ∈ cs := by
        rcases List.mem_cons.1 h with e | e
        · exact absurd e.symm hc
        · exact e
      simp [takeLine, hc, ih hcs]

theorem takeLine_snd_concat (q : List Char) :
    CompleteLines (takeLine (q ++ [NL])).2 := by
  induction q with
  | nil => left; simp [takeLine]
  | cons c cs ih =>
    by_cases hc : c = NL
    · right
      simp [takeLine, hc]
    · simpa [takeLine, hc] using ih

theorem completeLines_append (p q : List Char) (hp : CompleteLines p)
    (hq : CompleteLines q) : CompleteLines (p ++ q) := by
  rcases hq with rfl | hq
  · simpa using hp
  · right
    simp [hq]

/-- The loop over a file made of complete lines followed by one last line
ends with `line` holding that last line; the only allocation is the one of the
first `getline`. -/
theorem readLoop_lines (w : World) (fuel : Nat) :
    ∀ (p l : List Char) (line : LinePtr), CompleteLines p → IsLine l →
      p.length + l.length < fuel →
      readLoop w fuel line (p ++ l) = some (LinePtr.str l, allocOf line) := by
  induction fuel with
  | zero => intro p l line _ _ h; omega
  | succ n ih =>
    intro p l line hp hl hlen
    rcases (completeLines_iff p).1 hp with rfl | ⟨q, rfl⟩
    · obtain ⟨c, cs, rfl⟩ := List.exists_cons_of_ne_nil hl.1
      have ht := takeLine_of_isLine _ hl
      have hn : n ≠ 0 := by simp at hlen; omega
      obtain ⟨m, rfl⟩ := Nat.exists_eq_succ_of_ne_zero hn
      have h1 : ((List.length cs : Int) + 1 = -1) = False := by
        simp; omega
      cases line <;> simp [readLoop, getline, ht, allocOf, h1]
    · have hmem : NL ∈ q ++ [NL] := by simp
      have ht := takeLine_append_of_mem (q ++ [NL]) l hmem
      have hc := takeLine_snd_concat q
      have hlen2 := takeLine_length (q ++ [NL])
      obtain ⟨c, cs, hcs⟩ : ∃ c cs, (q ++ [NL]) ++ l = c :: cs := by
        cases q <;> simp
      have hne := takeLine_fst_ne_nil c cs
      have hrec := ih (takeLine (q ++ [NL])).2 l
        (LinePtr.str (takeLine (q ++ [NL])).1) hc hl (by
          have : 0 < (takeLine (q ++ [NL])).1.length := by
            rw [← hcs, ht] at hne
            exact List.length_pos.2 hne
          omega)
      rw [hcs] at ht
      rw [hcs]
      have h1 : (((takeLine (q ++ [NL])).1.length : Int) = -1) = False := by
        simp
      cases line <;> simp [readLoop, getline, ht, allocOf, h1, hrec]

/-! ## The conversion `strtoull` -/

theorem isspace_ne_nul (c : Char) (h : isspace c = true) : c ≠ NUL := by
  rintro rfl
  revert h
  decide

theorem isdigit_ne_nul (c : Char) (h : isdigit c = true) : c ≠ NUL := by
  rintro rfl
  revert h
  decide

theorem isdigit_ne_minus (c : Char) (h : isdigit c = true) : c ≠ '-' := by
  rintro rfl
  revert h
  decide

theorem isdigit_ne_plus (c : Char) (h : isdigit c = true) : c ≠ '+' := by
  rintro rfl
  revert h
  decide

theorem isdigit_not_isspace (c : Char) (h : isdigit c = true) : isspace c = false := by
  simp only [isdigit, Bool.and_eq_true, decide_eq_true_eq] at h
  simp only [isspace, Bool.or_eq_false_iff, Bool.and_eq_false_iff, beq_eq_false_iff_ne,
    decide_eq_false_iff_not]
  omega

theorem digitVal_le (c : Char) (h : isdigit c = true) : digitVal c ≤ 9 := by
  simp only [isdigit, Bool.and_eq_true, decide_eq_true_eq] at h
  unfold digitVal
  omega

theorem cstr_append (a b : List Char) (h : NUL ∉ a) : cstr (a ++ b) = a ++ cstr b := by
  induction a with
  | nil => rfl
  | cons c cs ih =>
    have hc : c ≠ NUL := fun e => h (by simp [e])
    have hcs : NUL ∉ cs := fun e => h (by simp [e])
    simp [cstr, hc, ih hcs]

theorem noDigitAhead_cstr (t : List Char) (h : NoDigitAhead t) : NoDigitAhead (cstr t) := by
  cases t with
  | nil => exact h
  | cons c cs =>
    by_cases hc : c = NUL
    · simp [cstr, hc, NoDigitAhead]
    · simpa [cstr, hc, NoDigitAhead] using h

theorem skipSpace_append (ws t : List Char) (h : ∀ c ∈ ws, isspace c = true) :
    skipSpace (ws ++ t) = skipSpace t := by
  induction ws with
  | nil => rfl
  | cons c cs ih =>
    have hc : isspace c = true := h c (by simp)
    have hcs : ∀ d ∈ cs, isspace d = true := fun d hd => h d (by simp [hd])
    simp [skipSpace, hc, ih hcs]

theorem skipSpace_of_head (t : List Char) (h : ∀ c ∈ t.head?, isspace c = false) :
    skipSpace t = t := by
  cases t with
  | nil => rfl
  | cons c cs =>
    have hc : isspace c = false := h c (by simp)
    simp [skipSpace, hc]

theorem cutoff_eq : ULLONG_MAX / 10 = 1844674407370955161 := by decide

theorem cutlim_eq : ULLONG_MAX % 10 = 5 := by decide

theorem decimalFrom_cons (acc : Nat) (c : Char) (ds : List Char) :
    decimalFrom acc (c :: ds) = decimalFrom (acc * 10 + digitVal c) ds := rfl

theorem decimalFrom_ge (ds : List Char) : ∀ acc, acc ≤ decimalFrom acc ds := by
  induction ds with
  | nil => intro acc; exact Nat.le_refl _
  | cons c cs ih =>
    intro acc
    rw [decimalFrom_cons]
    have := ih (acc * 10 + digitVal c)
    omega

theorem digitLoop_noDigit (t : List Char) (acc : Nat) (ovf : Bool) (h : NoDigitAhead t) :
    digitLoop t acc ovf = (acc, ovf) := by
  cases t with
  | nil => rfl
  | cons c cs =>
    have hc : isdigit c = false := h c (by simp)
    simp [digitLoop, hc]

/-- Without overflow the digit loop computes the decimal value. -/
theorem digitLoop_exact (t : List Char) (ht : NoDigitAhead t) (ds : List Char) :
    ∀ (acc : Nat) (ovf : Bool), (∀ c ∈ ds, isdigit c = true) →
      decimalFrom acc ds < 2 ^ 64 →
      digitLoop (ds ++ t) acc ovf = (decimalFrom acc ds, ovf) := by
  induction ds with
  | nil => intro acc ovf _ _; exact digitLoop_noDigit t acc ovf ht
  | cons c cs ih =>
    intro acc ovf hd hlt
    have hc : isdigit c = true := hd c (by simp)
    have hcs : ∀ d ∈ cs, isdigit d = true := fun d hm => hd d (by simp [hm])
    rw [decimalFrom_cons] at hlt
    have hge := decimalFrom_ge cs (acc * 10 + digitVal c)
    have hno : ¬ (acc > ULLONG_MAX / 10 ∨
        (acc = ULLONG_MAX / 10 ∧ digitVal c > ULLONG_MAX % 10)) := by
      rw [cutoff_eq, cutlim_eq]
      norm_num at hlt
      omega
    have h := ih (acc * 10 + digitVal c) ovf hcs hlt
    rw [List.cons_append, decimalFrom_cons, ← h]
    simp only [digitLoop, hc, if_true, hno, if_false]

theorem digitLoop_sticky (l : List Char) : ∀ acc, (digitLoop l acc true).2 = true := by
  induction l with
  | nil => intro acc; rfl
  | cons c cs ih =>
    intro acc
    by_cases hc : isdigit c = true
    · by_cases ho : acc > ULLONG_MAX / 10 ∨
          (acc = ULLONG_MAX / 10 ∧ digitVal c > ULLONG_MAX % 10)
      · simp only [digitLoop, hc, if_true, ho]
        exact ih acc
      · simp only [digitLoop, hc, if_true, ho, if_false]
        exact ih _
    · simp [digitLoop, hc]

/-- A digit string whose value does not fit sets the overflow flag. -/
theorem digitLoop_overflow (t : List Char) (ds : List Char) :
    ∀ (acc : Nat) (ovf : Bool), (∀ c ∈ ds, isdigit c = true) → acc < 2 ^ 64 →
      2 ^ 64 ≤ decimalFrom acc ds →
      (digitLoop (ds ++ t) acc ovf).2 = true := by
  induction ds with
  | nil =>
    intro acc ovf _ hacc hge
    simp only [decimalFrom, List.foldl_nil] at hge
    omega
  | cons c cs ih =>
    intro acc ovf hd hacc hge
    have hc : isdigit c = true := hd c (by simp)
    have hcs : ∀ d ∈ cs, isdigit d = true := fun d hm => hd d (by simp [hm])
    have h9 := digitVal_le c hc
    rw [decimalFrom_cons] at hge
    by_cases ho : acc > ULLONG_MAX / 10 ∨
        (acc = ULLONG_MAX / 10 ∧ digitVal c > ULLONG_MAX % 10)
    · have h := digitLoop_sticky (cs ++ t) acc
      rw [List.cons_append, ← h]
      simp only [digitLoop, hc, if_true, ho]
    · have h := ih (acc * 10 + digitVal c) ovf hcs (by
        rw [cutoff_eq, cutlim_eq] at ho
        norm_num
        omega) hge
      rw [List.cons_append, ← h]
      simp only [digitLoop, hc, if_true, ho, if_false]

theorem convert_noDigit (neg : Bool) (t : List Char) (h : NoDigitAhead t) :
    convert neg t = 0 := by
  cases t with
  | nil => rfl
  | cons c cs =>
    have hc : isdigit c = false := h c (by simp)
    simp [convert, hc]

theorem convert_digits (neg : Bool) (ds t : List Char) (hne : ds ≠ [])
    (hd : ∀ c ∈ ds, isdigit c = true) (ht : NoDigitAhead t) :
    convert neg (ds ++ t) =
      if 2 ^ 64 ≤ decimalValue ds then ULLONG_MAX
      else if neg then (2 ^ 64 - decimalValue ds) % 2 ^ 64
      else decimalValue ds := by
  obtain ⟨c, cs, rfl⟩ := List.exists_cons_of_ne_nil hne
  have hc : isdigit c = true := hd c (by simp)
  by_cases hv : 2 ^ 64 ≤ decimalValue (c :: cs)
  · have h := digitLoop_overflow t (c :: cs) 0 false hd (by norm_num) hv
    simp only [List.cons_append] at h
    rw [if_pos hv]
    simp [convert, hc, h]
  · have h := digitLoop_exact t ht (c :: cs) 0 false hd (by
      unfold decimalValue at hv; omega)
    simp only [List.cons_append] at h
    rw [if_neg hv]
    simp only [List.cons_append, convert, hc, if_true, h]
    rfl

/-- White space, then an unsigned digit run, then a text that stops the digit
loop: the value of the run, saturated at `ULLONG_MAX`. -/
theorem strtoull_unsigned (ws ds t : List Char) (hws : ∀ c ∈ ws, isspace c = true)
    (hne : ds ≠ []) (hd : ∀ c ∈ ds, isdigit c = true) (ht : NoDigitAhead t) :
    strtoull (ws ++ ds ++ t) =
      if 2 ^ 64 ≤ decimalValue ds then ULLONG_MAX else decimalValue ds := by
  have hconv := convert_digits false ds t hne hd ht
  obtain ⟨c, cs, rfl⟩ := List.exists_cons_of_ne_nil hne
  have hc : isdigit c = true := hd c (by simp)
  have hsp : skipSpace (c :: cs ++ t) = c :: cs ++ t :=
    skipSpace_of_head _ (by simpa using isdigit_not_isspace c hc)
  unfold strtoull
  rw [List.append_assoc, skipSpace_append ws _ hws, hsp]
  simp only [List.cons_append, isdigit_ne_minus c hc, isdigit_ne_plus c hc, if_false]
  simpa using hconv

/-- White space, a sign, a digit run, then a text that stops the digit loop. -/
theorem strtoull_signed (ws ds t : List Char) (sign : Char) (hws : ∀ c ∈ ws, isspace c = true)
    (hs : sign = '+' ∨ sign = '-')
    (hne : ds ≠ []) (hd : ∀ c ∈ ds, isdigit c = true) (ht : NoDigitAhead t) :
    strtoull (ws ++ sign :: ds ++ t) =
      if 2 ^ 64 ≤ decimalValue ds then ULLONG_MAX
      else if sign = '-' then (2 ^ 64 - decimalValue ds) % 2 ^ 64
      else decimalValue ds := by
  have hsp : skipSpace (sign :: (ds ++ t)) = sign :: (ds ++ t) :=
    skipSpace_of_head _ (by rcases hs with rfl | rfl <;> simp <;> decide)
  unfold strtoull
  rw [List.append_assoc, skipSpace_append ws _ hws, List.cons_append, hsp]
  rcases hs with rfl | rfl
  · simp [convert_digits false ds t hne hd ht]
  · simp [convert_digits true ds t hne hd ht]

/-- White space followed by a text that starts neither with white space, nor
with a digit, nor with a sign and a digit: no conversion, the result is 0. -/
theorem strtoull_zero (ws t : List Char) (hws : ∀ c ∈ ws, isspace c = true)
    (hsp : ∀ c ∈ t.head?, isspace c = false) (ht : NoDigitAhead t)
    (hsign : ∀ s r, t = s :: r → s = '+' ∨ s = '-' → NoDigitAhead r) :
    strtoull (ws ++ t) = 0 := by
  unfold strtoull
  rw [skipSpace_append ws _ hws, skipSpace_of_head t hsp]
  cases t with
  | nil => rfl
  | cons c cs =>
    by_cases hm : c = '-'
    · simp [hm, convert_noDigit true cs (hsign c cs rfl (Or.inr hm))]
    · by_cases hp : c = '+'
      · simp [hp, convert_noDigit false cs (hsign c cs rfl (Or.inl hp))]
      · simp [hm, hp, convert_noDigit false (c :: cs) ht]

/-! ## A trailing delimiter does not change the conversion -/

theorem isdigit_NL : isdigit NL = false := by decide

theorem isspace_NL : isspace NL = true := by decide

theorem digitLoop_append_NL (l : List Char) :
    ∀ (acc : Nat) (ovf : Bool), digitLoop (l ++ [NL]) acc ovf = digitLoop l acc ovf := by
  induction l with
  | nil => intro acc ovf; simp [digitLoop, isdigit_NL]
  | cons c cs ih =>
    intro acc ovf
    rw [List.cons_append]
    simp only [digitLoop, ih]

theorem convert_append_NL (neg : Bool) (l : List Char) :
    convert neg (l ++ [NL]) = convert neg l := by
  cases l with
  | nil => simp [convert, isdigit_NL]
  | cons c cs =>
    have h := digitLoop_append_NL (c :: cs) 0 false
    rw [List.cons_append] at h
    rw [List.cons_append]
    simp only [convert, h]

theorem skipSpace_append_NL (u : List Char) :
    (skipSpace (u ++ [NL]) = [] ∧ skipSpace u = []) ∨
    (skipSpace (u ++ [NL]) = skipSpace u ++ [NL] ∧ skipSpace u ≠ []) := by
  induction u with
  | nil => left; simp [skipSpace, isspace_NL]
  | cons c cs ih =>
    by_cases hc : isspace c = true
    · simpa [skipSpace, hc] using ih
    · right
      simp [skipSpace, hc]

theorem strtoull_append_NL (u : List Char) : strtoull (u ++ [NL]) = strtoull u := by
  unfold strtoull
  rcases skipSpace_append_NL u with ⟨h1, h2⟩ | ⟨h1, h2⟩
  · rw [h1, h2]
  · obtain ⟨c, cs, hcs⟩ := List.exists_cons_of_ne_nil h2
    rw [h1, hcs, List.cons_append]
    have e := convert_append_NL false (c :: cs)
    rw [List.cons_append] at e
    simp only [convert_append_NL, e]

theorem cstr_append_NL (s : List Char) :
    cstr (s ++ [NL]) = cstr s ∨ cstr (s ++ [NL]) = cstr s ++ [NL] := by
  induction s with
  | nil => right; simp [cstr]; decide
  | cons c cs ih =>
    by_cases hc : c = NUL
    · left; simp [cstr, hc]
    · rcases ih with h | h
      · left; simp [cstr, hc, h]
      · right; simp [cstr, hc, h]

theorem strtoull_cstr_append_NL (s : List Char) :
    strtoull (cstr (s ++ [NL])) = strtoull (cstr s) := by
  rcases cstr_append_NL s with h | h
  · rw [h]
  · rw [h, strtoull_append_NL]

/-! ## The last line of a content -/

theorem lastLine_of_reverse (c r : List Char) (x : Char) (h : c.reverse = x :: r) :
    lastLine c = (r.takeWhile (fun y => y != NL)).reverse ++ [x] := by
  unfold lastLine
  rw [h]

/-- A non-empty content is a run of complete lines followed by its last
line. -/
theorem lastLine_decomp (c : List Char) (hc : c ≠ []) :
    ∃ p, CompleteLines p ∧ c = p ++ lastLine c ∧ IsLine (lastLine c) := by
  have hr : c.reverse ≠ [] := by simpa using hc
  obtain ⟨x, r, hxr⟩ := List.exists_cons_of_ne_nil hr
  have hl := lastLine_of_reverse c r x hxr
  have hceq : c = r.reverse ++ [x] := by
    have := congrArg List.reverse hxr
    simpa using this
  refine ⟨(r.dropWhile (fun y => y != NL)).reverse, ?_, ?_, ?_⟩
  · cases hdw : r.dropWhile (fun y => y != NL) with
    | nil => left; rfl
    | cons y ys =>
      right
      have hy : (y != NL) = false := by
        have := List.head_dropWhile_not (fun y => y != NL) r (by rw [hdw]; simp)
        simpa [hdw] using this
      have hy2 : y = NL := by simpa using hy
      simp [hy2]
  · rw [hl, ← List.append_assoc, ← List.reverse_append, List.takeWhile_append_dropWhile]
    exact hceq
  · rw [hl]
    refine ⟨by simp, ?_⟩
    rw [List.dropLast_concat]
    intro hmem
    have := List.mem_takeWhile_imp (List.mem_reverse.1 hmem)
    simp at this

theorem lastLine_eq_lastSegment (c : List Char) (hc : c ≠ [])
    (hlast : c.getLast? ≠ some NL) : lastLine c = lastSegment c := by
  have hr : c.reverse ≠ [] := by simpa using hc
  obtain ⟨x, r, hxr⟩ := List.exists_cons_of_ne_nil hr
  have hx : x ≠ NL := by
    intro e
    apply hlast
    have : c = r.reverse ++ [x] := by
      have := congrArg List.reverse hxr
      simpa using this
    rw [this, e]
    simp
  rw [lastLine_of_reverse c r x hxr]
  unfold lastSegment
  rw [hxr]
  simp [List.takeWhile_cons, hx]

theorem lastLine_append_NL (c : List Char) :
    lastLine (c ++ [NL]) = lastSegment c ++ [NL] := by
  rw [lastLine_of_reverse (c ++ [NL]) c.reverse NL (by simp)]
  rfl

/-! ## What `readen` computes -/

/-- On a file made of complete lines followed by one last line, `readen`
returns the conversion of that last line, having opened the file, allocated
one buffer, freed it and closed the file. -/
theorem readen_lines (w : World) (path p l : List Char)
    (hopen : w.fopen path = some (p ++ l)) (hp : CompleteLines p) (hl : IsLine l) :
    readen w path = ⟨Outcome.returned (strtoull (cstr l)),
      [Event.fopen, Event.alloc, Event.free, Event.fclose]⟩ := by
  have h := readLoop_lines w ((p ++ l).length + 1) p l LinePtr.null hp hl (by simp)
  unfold readen
  rw [hopen]
  simp only [h, allocOf, strtoullPtr, freeLine]
  rfl

/-- On a non-empty file `readen` returns the conversion of the last line. -/
theorem readen_nonempty (w : World) (path c : List Char)
    (hopen : w.fopen path = some c) (hc : c ≠ []) :
    readen w path = ⟨Outcome.returned (strtoull (cstr (lastLine c))),
      [Event.fopen, Event.alloc, Event.free, Event.fclose]⟩ := by
  obtain ⟨p, hp, hcp, hl⟩ := lastLine_decomp c hc
  rw [hcp] at hopen
  exact readen_lines w path p _ hopen hp hl

/-- On an empty file the only `getline` allocates the buffer and returns `-1`
without writing to it. -/
theorem readLoop_empty (w : World) (fuel : Nat) :
    readLoop w (fuel + 1) LinePtr.null [] = some (LinePtr.str w.heap, [Event.alloc]) := by
  simp [readLoop, getline]

/-- On an empty file `readen` returns the conversion of what the unwritten
buffer holds, and releases the buffer and the stream. -/
theorem readen_empty (w : World) (path : List Char) (hopen : w.fopen path = some []) :
    readen w path = ⟨Outcome.returned (strtoull (cstr w.heap)),
      [Event.fopen, Event.alloc, Event.free, Event.fclose]⟩ := by
  unfold readen
  rw [hopen]
  simp only [List.length_nil, readLoop_empty w 0, strtoullPtr, freeLine]
  rfl

/-- The fuel given to the loop by `readen` always suffices. -/
theorem readLoop_fuel (w : World) (fd : List Char) :
    readLoop w (fd.length + 1) LinePtr.null fd ≠ none := by
  by_cases hfd : fd = []
  · subst hfd
    rw [List.length_nil, readLoop_empty w 0]
    simp
  · obtain ⟨p, hp, hcp, hl⟩ := lastLine_decomp fd hfd
    have h := readLoop_lines w (fd.length + 1) p _ LinePtr.null hp hl (by
      rw [← List.length_append, ← hcp]; omega)
    rw [← hcp] at h
    rw [h]
    simp

/-- After the loop of `readen`, `line` is not `NULL`. -/
theorem readLoop_ne_null (w : World) (fd : List Char) (evs : List Event) :
    readLoop w (fd.length + 1) LinePtr.null fd ≠ some (LinePtr.null, evs) := by
  by_cases hfd : fd = []
  · subst hfd
    rw [List.length_nil, readLoop_empty w 0]
    simp
  · obtain ⟨p, hp, hcp, hl⟩ := lastLine_decomp fd hfd
    have h := readLoop_lines w (fd.length + 1) p _ LinePtr.null hp hl (by
      rw [← List.length_append, ← hcp]; omega)
    rw [← hcp] at h
    rw [h]
    simp

/-- The process exits exactly when the file cannot be opened, and then with
`EXIT_FAILURE`. -/
theorem readen_exited_iff (w : World) (path : List Char) (status : Nat) :
    (readen w path).outcome = Outcome.exited status ↔
      w.fopen path = none ∧ status = EXIT_FAILURE := by
  cases hopen : w.fopen path with
  | none =>
    simp only [readen, hopen, true_and]
    constructor
    · intro h; injection h with h; exact h.symm
    · intro h; rw [h]
  | some fd =>
    by_cases hfd : fd = []
    · subst hfd
      rw [readen_empty w path hopen]
      simp
    · rw [readen_nonempty w path fd hopen hfd]
      simp

/-- No call of `readen` ends in undefined behaviour. -/
theorem readen_defined (w : World) (path : List Char) :
    (readen w path).outcome ≠ Outcome.undefined := by
  cases hopen : w.fopen path with
  | none => simp [readen, hopen]
  | some fd =>
    by_cases hfd : fd = []
    · subst hfd
      rw [readen_empty w path hopen]
      simp
    · rw [readen_nonempty w path fd hopen hfd]
      simp

theorem nul_not_mem_of_isspace (ws : List Char) (h : ∀ c ∈ ws, isspace c = true) :
    NUL ∉ ws := fun hm => isspace_ne_nul NUL (h NUL hm) rfl

theorem nul_not_mem_of_isdigit (ds : List Char) (h : ∀ c ∈ ds, isdigit c = true) :
    NUL ∉ ds := fun hm => isdigit_ne_nul NUL (h NUL hm) rfl

theorem isLine_of_body (b term : List Char) (hne : b ≠ []) (hb : NL ∉ b)
    (hterm : term = [] ∨ term = [NL]) : IsLine (b ++ term) := by
  rcases hterm with rfl | rfl
  · refine ⟨by simpa using hne, ?_⟩
    rw [List.append_nil]
    exact fun hm => hb (List.mem_of_mem_dropLast hm)
  · refine ⟨by simp, ?_⟩
    rw [List.dropLast_concat]
    exact hb

/-- Last line made of white space, an unsigned digit run and a text that
stops the digit loop: `readen` returns the value of the run, saturated. -/
theorem readen_unsigned (w : World) (path p ws ds t : List Char)
    (hopen : w.fopen path = some (p ++ (ws ++ ds ++ t)))
    (hp : CompleteLines p) (hl : IsLine (ws ++ ds ++ t))
    (hws : ∀ c ∈ ws, isspace c = true) (hne : ds ≠ [])
    (hd : ∀ c ∈ ds, isdigit c = true) (ht : NoDigitAhead t) :
    (readen w path).outcome = Outcome.returned
      (if 2 ^ 64 ≤ decimalValue ds then ULLONG_MAX else decimalValue ds) := by
  rw [readen_lines w path p _ hopen hp hl]
  have hn : NUL ∉ ws ++ ds := by
    intro hm
    rcases List.mem_append.1 hm with h | h
    · exact nul_not_mem_of_isspace ws hws h
    · exact nul_not_mem_of_isdigit ds hd h
  rw [cstr_append _ _ hn, strtoull_unsigned ws ds _ hws hne hd (noDigitAhead_cstr t ht)]

/-- Last line made of white space, a sign, a digit run and a text that stops
the digit loop. -/
theorem readen_with_sign (w : World) (path p ws ds t : List Char) (sign : Char)
    (hopen : w.fopen path = some (p ++ (ws ++ sign :: ds ++ t)))
    (hp : CompleteLines p) (hl : IsLine (ws ++ sign :: ds ++ t))
    (hws : ∀ c ∈ ws, isspace c = true) (hs : sign = '+' ∨ sign = '-')
    (hne : ds ≠ []) (hd : ∀ c ∈ ds, isdigit c = true) (ht : NoDigitAhead t) :
    (readen w path).outcome = Outcome.returned
      (if 2 ^ 64 ≤ decimalValue ds then ULLONG_MAX
       else if sign = '-' then (2 ^ 64 - decimalValue ds) % 2 ^ 64
       else decimalValue ds) := by
  rw [readen_lines w path p _ hopen hp hl]
  have hsn : sign ≠ NUL := by rcases hs with rfl | rfl <;> decide
  have hn : NUL ∉ ws ++ sign :: ds := by
    intro hm
    rcases List.mem_append.1 hm with h | h
    · exact nul_not_mem_of_isspace ws hws h
    · rcases List.mem_cons.1 h with h | h
      · exact hsn h.symm
      · exact nul_not_mem_of_isdigit ds hd h
  rw [cstr_append _ _ hn,
    strtoull_signed ws ds _ sign hws hs hne hd (noDigitAhead_cstr t ht)]

/-- The hypotheses of `strtoull_zero` survive the cut at the first NUL. -/
theorem cstr_sign_noDigit (t : List Char)
    (hsign : ∀ s r, t = s :: r → s = '+' ∨ s = '-' → NoDigitAhead r) :
    ∀ s r, cstr t = s :: r → s = '+' ∨ s = '-' → NoDigitAhead r := by
  intro s r hsr hs
  cases t with
  | nil => simp [cstr] at hsr
  | cons c cs =>
    by_cases hc : c = NUL
    · simp [cstr, hc] at hsr
    · simp only [cstr, hc, if_false, List.cons.injEq] at hsr
      obtain ⟨rfl, rfl⟩ := hsr
      exact noDigitAhead_cstr cs (hsign c cs rfl hs)

theorem cstr_head_not_space (t : List Char) (hsp : ∀ c ∈ t.head?, isspace c = false) :
    ∀ c ∈ (cstr t).head?, isspace c = false := by
  cases t with
  | nil => exact hsp
  | cons c cs =>
    by_cases hc : c = NUL
    · simp [cstr, hc]
    · simpa [cstr, hc] using hsp

/-- Horner value of a digit string and Mathlib's `Nat.ofDigits` agree. -/
theorem decimalFrom_eq_ofDigits (ds : List Char) : ∀ acc,
    decimalFrom acc ds =
      acc * 10 ^ ds.length + Nat.ofDigits 10 ((ds.map digitVal).reverse) := by
  induction ds with
  | nil => intro acc; simp [decimalFrom]
  | cons c cs ih =>
    intro acc
    rw [decimalFrom_cons, ih]
    simp only [List.map_cons, List.reverse_cons, Nat.ofDigits_append, Nat.ofDigits_singleton,
      List.length_reverse, List.length_map, List.length_cons]
    ring

theorem decimalValue_eq_ofDigits (ds : List Char) :
    decimalValue ds = Nat.ofDigits 10 ((ds.map digitVal).reverse) := by
  unfold decimalValue
  rw [decimalFrom_eq_ofDigits]
  simp

theorem readLoop_nonempty (w : World) (c : List Char) (hc : c ≠ []) :
    readLoop w (c.length + 1) LinePtr.null c =
      some (LinePtr.str (lastLine c), [Event.alloc]) := by
  obtain ⟨p, hp, hcp, hl⟩ := lastLine_decomp c hc
  have h := readLoop_lines w (c.length + 1) p _ LinePtr.null hp hl (by
    rw [← List.length_append, ← hcp]; omega)
  rw [← hcp] at h
  exact h

theorem lastSegment_ne_nil (c : List Char) (hc : c ≠ [])
    (hlast : c.getLast? ≠ some NL) : lastSegment c ≠ [] := by
  rw [← lastLine_eq_lastSegment c hc hlast]
  exact (lastLine_decomp c hc).choose_spec.2.2.1

/-! ## Sanity of the vocabulary and of the conversion -/

theorem digitVal_digitChar (k : Nat) (hk : k < 10) : digitVal (Nat.digitChar k) = k := by
  interval_cases k <;> decide

theorem isdigit_digitChar (k : Nat) (hk : k < 10) : isdigit (Nat.digitChar k) = true := by
  interval_cases k <;> decide

theorem decimalFrom_toDigitsCore (fuel : Nat) : ∀ (n : Nat) (ds : List Char), n < fuel →
    decimalFrom 0 (Nat.toDigitsCore 10 fuel n ds) = decimalFrom n ds := by
  induction fuel with
  | zero => intro n ds h; omega
  | succ f ih =>
    intro n ds h
    have hm : n % 10 < 10 := Nat.mod_lt _ (by norm_num)
    by_cases h0 : n / 10 = 0
    · have hn : n % 10 = n := by omega
      simp only [Nat.toDigitsCore, h0, if_true, decimalFrom_cons]
      rw [digitVal_digitChar _ hm, hn, Nat.zero_mul, Nat.zero_add]
    · have hlt : n / 10 < f := by omega
      simp only [Nat.toDigitsCore, h0, if_false]
      rw [ih (n / 10) _ hlt, decimalFrom_cons, digitVal_digitChar _ hm]
      congr 1
      omega

/-- The decimal numeral that Lean prints for `n` has value `n`. -/
theorem decimalValue_toDigits (n : Nat) : decimalValue (Nat.toDigits 10 n) = n := by
  unfold decimalValue Nat.toDigits
  rw [decimalFrom_toDigitsCore (n + 1) n [] (by omega)]
  rfl

theorem isdigit_toDigitsCore (fuel : Nat) : ∀ (n : Nat) (ds : List Char),
    (∀ c ∈ ds, isdigit c = true) →
    ∀ c ∈ Nat.toDigitsCore 10 fuel n ds, isdigit c = true := by
  induction fuel with
  | zero => intro n ds h; simpa [Nat.toDigitsCore] using h
  | succ f ih =>
    intro n ds h
    have hm : n % 10 < 10 := Nat.mod_lt _ (by norm_num)
    have hcons : ∀ c ∈ Nat.digitChar (n % 10) :: ds, isdigit c = true := by
      intro c hc
      rcases List.mem_cons.1 hc with e | e
      · rw [e]; exact isdigit_digitChar _ hm
      · exact h c e
    by_cases h0 : n / 10 = 0
    · simpa only [Nat.toDigitsCore, h0, if_true] using hcons
    · simp only [Nat.toDigitsCore, h0, if_false]
      exact ih (n / 10) _ hcons

/-- The decimal numeral that Lean prints for `n` is made of digits. -/
theorem isdigit_toDigits (n : Nat) : ∀ c ∈ Nat.toDigits 10 n, isdigit c = true :=
  isdigit_toDigitsCore (n + 1) n [] (by simp)

theorem digitLoop_lt (l : List Char) : ∀ (acc : Nat) (ovf : Bool), acc < 2 ^ 64 →
    (digitLoop l acc ovf).1 < 2 ^ 64 := by
  induction l with
  | nil => intro acc ovf h; exact h
  | cons c cs ih =>
    intro acc ovf h
    by_cases hc : isdigit c = true
    · have h9 := digitVal_le c hc
      by_cases ho : acc > ULLONG_MAX / 10 ∨
          (acc = ULLONG_MAX / 10 ∧ digitVal c > ULLONG_MAX % 10)
      · simp only [digitLoop, hc, if_true, ho]
        exact ih acc true h
      · simp only [digitLoop, hc, if_true, ho, if_false]
        refine ih _ ovf ?_
        rw [cutoff_eq, cutlim_eq] at ho
        norm_num
        omega
    · simpa [digitLoop, hc] using h

theorem convert_lt (neg : Bool) (s : List Char) : convert neg s < 2 ^ 64 := by
  cases s with
  | nil => simp [convert]
  | cons c cs =>
    have h := digitLoop_lt (c :: cs) 0 false (by norm_num)
    have hm : (2 ^ 64 - (digitLoop (c :: cs) 0 false).1) % 2 ^ 64 < 2 ^ 64 :=
      Nat.mod_lt _ (by norm_num)
    have hu : ULLONG_MAX < 2 ^ 64 := by decide
    have key : convert neg (c :: cs) =
        if isdigit c = true then
          if (digitLoop (c :: cs) 0 false).2 = true then ULLONG_MAX
          else if neg = true then (2 ^ 64 - (digitLoop (c :: cs) 0 false).1) % 2 ^ 64
          else (digitLoop (c :: cs) 0 false).1
        else 0 := rfl
    rw [key]
    split_ifs
    · exact hu
    · exact hm
    · exact h
    · norm_num

/-- The result of `strtoull` fits in 64 bits. -/
theorem strtoull_lt (s : List Char) : strtoull s < 2 ^ 64 := by
  unfold strtoull
  split
  · norm_num
  · split_ifs <;> exact convert_lt _ _

/-- Whatever `readen` returns fits in 64 bits. -/
theorem readen_returned_lt (w : World) (path : List Char) (v : Nat)
    (h : (readen w path).outcome = Outcome.returned v) : v < 2 ^ 64 := by
  cases hopen : w.fopen path with
  | none => simp [readen, hopen] at h
  | some fd =>
    by_cases hfd : fd = []
    · subst hfd
      rw [readen_empty w path hopen] at h
      injection h with h
      rw [← h]
      exact strtoull_lt _
    · rw [readen_nonempty w path fd hopen hfd] at h
      injection h with h
      rw [← h]
      exact strtoull_lt _

/-! ## The claims -/

/-- C1: a file that opens and whose final line is a non-empty string of decimal
digits of value below `2 ^ 64` (leading zeros allowed, trailing delimiter
optional), after any number of complete earlier lines, makes `readen` return
exactly that value. -/
theorem readen_last_line_decimal (w : World) (path p ds term : List Char)
    (hopen : w.fopen path = some (p ++ (ds ++ term)))
    (hp : CompleteLines p) (hne : ds ≠ []) (hd : ∀ c ∈ ds, isdigit c = true)
    (hterm : term = [] ∨ term = [NL]) (hv : decimalValue ds < 2 ^ 64) :
    (readen w path).outcome = Outcome.returned (decimalValue ds) := by
  have hnl : NL ∉ ds := fun hm => by
    have := hd NL hm
    rw [isdigit_NL] at this
    exact Bool.noConfusion this
  have hl : IsLine ([] ++ ds ++ term) := by
    simpa using isLine_of_body ds term hne hnl hterm
  have ht : NoDigitAhead term := by
    rcases hterm with rfl | rfl <;> decide
  have h := readen_unsigned w path p [] ds term (by simpa using hopen) hp hl
    (by simp) hne hd ht
  rw [h, if_neg (by omega)]

theorem readen_last_line_decimal_witness :
    CompleteLines "10\n20\n".toList ∧ decimalValue "0042".toList < 2 ^ 64 ∧
    (readen (fileWorld ("10\n20\n".toList ++ ("0042".toList ++ [NL])) "77".toList) []).outcome
      = Outcome.returned (decimalValue "0042".toList) ∧
    decimalValue "0042".toList = 42 :=
  ⟨by decide, by decide,
    readen_last_line_decimal (fileWorld ("10\n20\n".toList ++ ("0042".toList ++ [NL])) "77".toList)
      [] "10\n20\n".toList "0042".toList [NL] rfl (by decide) (by decide) (by decide)
      (Or.inr rfl) (by decide),
    by decide⟩

/-- C2: only the final line determines the result. For a non-empty content `c`
and a prefix `p` of complete lines, `readen` on `p ++ c` returns the
conversion of the last line of `c`, which is also what it returns on a file
holding that last line alone. -/
theorem readen_only_last_line (w1 w2 : World) (path1 path2 p c : List Char)
    (h1 : w1.fopen path1 = some (p ++ c)) (h2 : w2.fopen path2 = some (lastLine c))
    (hp : CompleteLines p) (hc : c ≠ []) :
    (readen w1 path1).outcome = Outcome.returned (strtoull (cstr (lastLine c))) ∧
    (readen w2 path2).outcome = (readen w1 path1).outcome := by
  obtain ⟨q, hq, hcq, hl⟩ := lastLine_decomp c hc
  have e1 : w1.fopen path1 = some ((p ++ q) ++ lastLine c) := by
    rw [List.append_assoc, ← hcq]; exact h1
  have e2 : w2.fopen path2 = some ([] ++ lastLine c) := by simpa using h2
  rw [readen_lines w1 path1 (p ++ q) _ e1 (completeLines_append p q hp hq) hl,
    readen_lines w2 path2 [] _ e2 (Or.inl rfl) hl]
  exact ⟨rfl, rfl⟩

theorem readen_only_last_line_witness :
    CompleteLines "1\n2\n".toList ∧ lastLine "3\n42\n".toList = "42\n".toList ∧
    strtoull (cstr (lastLine "3\n42\n".toList)) = 42 ∧
    ((readen (fileWorld ("1\n2\n".toList ++ "3\n42\n".toList) "77".toList) []).outcome
        = Outcome.returned (strtoull (cstr (lastLine "3\n42\n".toList))) ∧
      (readen (fileWorld (lastLine "3\n42\n".toList) "77".toList) []).outcome
        = (readen (fileWorld ("1\n2\n".toList ++ "3\n42\n".toList) "77".toList) []).outcome) :=
  ⟨by decide, by decide, by decide,
    readen_only_last_line (fileWorld ("1\n2\n".toList ++ "3\n42\n".toList) "77".toList)
      (fileWorld (lastLine "3\n42\n".toList) "77".toList) [] [] "1\n2\n".toList
      "3\n42\n".toList rfl rfl (by decide) (by decide)⟩

/-- C3: on an empty file that opens, `readen` does not return 0 but the
conversion of whatever the unwritten buffer holds: no line is read, the only
`getline` allocates the buffer and leaves it as it is, and `strtoull` is
applied to it; with the bytes `-1` in the buffer the result is `2 ^ 64 - 1`. -/
theorem readen_empty_file_unwritten (heap path : List Char) :
    (fileWorld [] heap).fopen path = some [] ∧
    readLoop (fileWorld [] heap) ([] : List Char).length.succ LinePtr.null []
      = some (LinePtr.str heap, [Event.alloc]) ∧
    (readen (fileWorld [] heap) path).outcome = Outcome.returned (strtoull (cstr heap)) ∧
    (readen (fileWorld [] "-1".toList) path).outcome
      = Outcome.returned 18446744073709551615 ∧
    (readen (fileWorld [] "-1".toList) path).outcome ≠ Outcome.returned 0 := by
  have h := readen_empty (fileWorld [] heap) path rfl
  have h1 := readen_empty (fileWorld [] "-1".toList) path rfl
  have hv : strtoull (cstr (fileWorld [] "-1".toList).heap) = 18446744073709551615 := by
    decide
  rw [hv] at h1
  refine ⟨rfl, readLoop_empty (fileWorld [] heap) 0, ?_, ?_, ?_⟩
  · rw [h]; rfl
  · rw [h1]
  · rw [h1]; simp

/-- C4: a missing trailing delimiter does not change the result. For a
non-empty content `c` that does not end with the delimiter, `readen` returns
the conversion of the final segment of `c` on `c` and on `c` followed by the
delimiter; the loop ends with `line` holding that segment, respectively that
segment and the delimiter, and the segment is not empty. -/
theorem readen_trailing_delimiter (w1 w2 : World) (path1 path2 c : List Char)
    (h1 : w1.fopen path1 = some c) (h2 : w2.fopen path2 = some (c ++ [NL]))
    (hc : c ≠ []) (hlast : c.getLast? ≠ some NL) :
    (readen w1 path1).outcome = Outcome.returned (strtoull (cstr (lastSegment c))) ∧
    (readen w2 path2).outcome = (readen w1 path1).outcome ∧
    readLoop w1 (c.length + 1) LinePtr.null c
      = some (LinePtr.str (lastSegment c), [Event.alloc]) ∧
    readLoop w2 ((c ++ [NL]).length + 1) LinePtr.null (c ++ [NL])
      = some (LinePtr.str (lastSegment c ++ [NL]), [Event.alloc]) ∧
    lastSegment c ≠ [] := by
  have hne : c ++ [NL] ≠ [] := by simp
  have e := lastLine_eq_lastSegment c hc hlast
  refine ⟨?_, ?_, ?_, ?_, lastSegment_ne_nil c hc hlast⟩
  · rw [readen_nonempty w1 path1 c h1 hc, e]
  · rw [readen_nonempty w1 path1 c h1 hc, readen_nonempty w2 path2 _ h2 hne,
      lastLine_append_NL, strtoull_cstr_append_NL, e]
  · rw [readLoop_nonempty w1 c hc, e]
  · rw [readLoop_nonempty w2 _ hne, lastLine_append_NL]

theorem readen_trailing_delimiter_witness :
    "7\n 42".toList.getLast? ≠ some NL ∧ lastSegment "7\n 42".toList = " 42".toList ∧
    strtoull (cstr (lastSegment "7\n 42".toList)) = 42 ∧
    ((readen (fileWorld "7\n 42".toList "77".toList) []).outcome
        = Outcome.returned (strtoull (cstr (lastSegment "7\n 42".toList))) ∧
      (readen (fileWorld ("7\n 42".toList ++ [NL]) "77".toList) []).outcome
        = (readen (fileWorld "7\n 42".toList "77".toList) []).outcome ∧
      readLoop (fileWorld "7\n 42".toList "77".toList) ("7\n 42".toList.length + 1)
          LinePtr.null "7\n 42".toList
        = some (LinePtr.str (lastSegment "7\n 42".toList), [Event.alloc]) ∧
      readLoop (fileWorld ("7\n 42".toList ++ [NL]) "77".toList)
          (("7\n 42".toList ++ [NL]).length + 1) LinePtr.null ("7\n 42".toList ++ [NL])
        = some (LinePtr.str (lastSegment "7\n 42".toList ++ [NL]), [Event.alloc]) ∧
      lastSegment "7\n 42".toList ≠ []) :=
  ⟨by decide, by decide, by decide,
    readen_trailing_delimiter (fileWorld "7\n 42".toList "77".toList)
      (fileWorld ("7\n 42".toList ++ [NL]) "77".toList) [] [] "7\n 42".toList rfl rfl
      (by decide) (by decide)⟩

/-- C5: parsing stops at the first byte that is not a digit. A last line made
of optional white space, a non-empty digit run of value below `2 ^ 64`, a byte
that is not a digit and any further content makes `readen` return the value
of the run. -/
theorem readen_stops_at_non_digit (w : World) (path p ws ds rest : List Char) (x : Char)
    (hopen : w.fopen path = some (p ++ (ws ++ ds ++ x :: rest)))
    (hp : CompleteLines p) (hl : IsLine (ws ++ ds ++ x :: rest))
    (hws : ∀ c ∈ ws, isspace c = true) (hne : ds ≠ [])
    (hd : ∀ c ∈ ds, isdigit c = true) (hx : isdigit x = false)
    (hv : decimalValue ds < 2 ^ 64) :
    (readen w path).outcome = Outcome.returned (decimalValue ds) := by
  have ht : NoDigitAhead (x :: rest) := by
    intro c hc
    simp only [List.head?_cons, Option.mem_def, Option.some.injEq] at hc
    rw [← hc]; exact hx
  rw [readen_unsigned w path p ws ds (x :: rest) hopen hp hl hws hne hd ht,
    if_neg (by omega)]

theorem readen_stops_at_non_digit_witness :
    IsLine ("".toList ++ "123".toList ++ 'a' :: "bc".toList) ∧ isdigit 'a' = false ∧
    decimalValue "123".toList = 123 ∧
    (readen (fileWorld ("9\n".toList ++ ("".toList ++ "123".toList ++ 'a' :: "bc".toList))
        "77".toList) []).outcome = Outcome.returned (decimalValue "123".toList) :=
  ⟨by decide, by decide, by decide,
    readen_stops_at_non_digit
      (fileWorld ("9\n".toList ++ ("".toList ++ "123".toList ++ 'a' :: "bc".toList)) "77".toList)
      [] "9\n".toList "".toList "123".toList "bc".toList 'a' rfl (by decide) (by decide)
      (by decide) (by decide) (by decide) (by decide) (by decide)⟩

/-- C6 as stated fails: the last line `-1` does not start with a digit, yet
`readen` returns `2 ^ 64 - 1` on it, so the statement that every last line
without a leading digit gives 0 is false. -/
theorem readen_sign_not_zero :
    (NoDigitAhead "-1".toList ∧
      (readen (fileWorld "-1".toList "77".toList) []).outcome
        = Outcome.returned 18446744073709551615) ∧
    ¬ (∀ (w : World) (path p ws t : List Char),
        w.fopen path = some (p ++ (ws ++ t)) → CompleteLines p → IsLine (ws ++ t) →
        (∀ c ∈ ws, isspace c = true) → (∀ c ∈ t.head?, isspace c = false) →
        NoDigitAhead t → (readen w path).outcome = Outcome.returned 0) := by
  refine ⟨⟨by decide, by decide⟩, ?_⟩
  intro h
  have h0 := h (fileWorld "-1".toList "77".toList) [] [] [] "-1".toList rfl (by decide)
    (by decide) (by decide) (by decide) (by decide)
  revert h0
  decide

/-- C6 amended: a last line that, after its leading white space, starts neither
with a digit nor with a sign followed by a digit makes `readen` return 0. -/
theorem readen_no_conversion_zero (w : World) (path p ws t : List Char)
    (hopen : w.fopen path = some (p ++ (ws ++ t)))
    (hp : CompleteLines p) (hl : IsLine (ws ++ t))
    (hws : ∀ c ∈ ws, isspace c = true) (hsp : ∀ c ∈ t.head?, isspace c = false)
    (ht : NoDigitAhead t)
    (hsign : ∀ s r, t = s :: r → s = '+' ∨ s = '-' → NoDigitAhead r) :
    (readen w path).outcome = Outcome.returned 0 := by
  rw [readen_lines w path p _ hopen hp hl,
    cstr_append _ _ (nul_not_mem_of_isspace ws hws),
    strtoull_zero ws (cstr t) hws (cstr_head_not_space t hsp) (noDigitAhead_cstr t ht)
      (cstr_sign_noDigit t hsign)]

theorem readen_no_conversion_zero_witness :
    IsLine ("  ".toList ++ "abc\n".toList) ∧ NoDigitAhead "abc\n".toList ∧
    (readen (fileWorld ("5\n".toList ++ ("  ".toList ++ "abc\n".toList)) "77".toList) []).outcome
      = Outcome.returned 0 :=
  ⟨by decide, by decide,
    readen_no_conversion_zero
      (fileWorld ("5\n".toList ++ ("  ".toList ++ "abc\n".toList)) "77".toList) []
      "5\n".toList "  ".toList "abc\n".toList rfl (by decide) (by decide) (by decide)
      (by decide) (by decide)
      (fun s r h hs => by
        simp only [String.toList, List.cons.injEq] at h
        obtain ⟨rfl, -⟩ := h
        rcases hs with e | e <;> exact absurd e (by decide))⟩

/-- C7: the process exits, with the non-zero status `EXIT_FAILURE`, exactly
when the file cannot be opened, and then no value is returned; whenever the
open succeeds `readen` returns a value and does not exit. -/
theorem readen_exit_or_value (w : World) (path : List Char) :
    ((readen w path).outcome = Outcome.exited EXIT_FAILURE ↔ w.fopen path = none) ∧
    (∀ s, (readen w path).outcome = Outcome.exited s →
      s = EXIT_FAILURE ∧ w.fopen path = none) ∧
    EXIT_FAILURE ≠ 0 ∧
    (w.fopen path = none → ∀ v, (readen w path).outcome ≠ Outcome.returned v) ∧
    (∀ c, w.fopen path = some c →
      (∃ v, (readen w path).outcome = Outcome.returned v) ∧
      ∀ s, (readen w path).outcome ≠ Outcome.exited s) := by
  refine ⟨?_, ?_, by decide, ?_, ?_⟩
  · rw [readen_exited_iff]; simp
  · intro s h
    exact ⟨((readen_exited_iff w path s).1 h).2, ((readen_exited_iff w path s).1 h).1⟩
  · intro hopen v hv
    have h := (readen_exited_iff w path EXIT_FAILURE).2 ⟨hopen, rfl⟩
    rw [h] at hv
    exact Outcome.noConfusion hv
  · intro c hopen
    refine ⟨?_, ?_⟩
    · by_cases hc : c = []
      · subst hc
        exact ⟨_, by rw [readen_empty w path hopen]⟩
      · exact ⟨_, by rw [readen_nonempty w path c hopen hc]⟩
    · intro s hs
      have h := ((readen_exited_iff w path s).1 hs).1
      rw [hopen] at h
      exact Option.noConfusion h

theorem readen_exit_or_value_witness :
    ((readen (noFileWorld "77".toList) "nofile".toList).outcome
        = Outcome.exited EXIT_FAILURE ↔ (noFileWorld "77".toList).fopen "nofile".toList = none) ∧
    (∀ v, (readen (noFileWorld "77".toList) "nofile".toList).outcome ≠ Outcome.returned v) ∧
    ((∃ v, (readen (fileWorld [] "77".toList) "empty".toList).outcome = Outcome.returned v) ∧
      ∀ s, (readen (fileWorld [] "77".toList) "empty".toList).outcome ≠ Outcome.exited s) ∧
    ((∃ v, (readen (fileWorld "5\n".toList "77".toList) "five".toList).outcome
        = Outcome.returned v) ∧
      ∀ s, (readen (fileWorld "5\n".toList "77".toList) "five".toList).outcome
        ≠ Outcome.exited s) :=
  ⟨(readen_exit_or_value (noFileWorld "77".toList) "nofile".toList).1,
    (readen_exit_or_value (noFileWorld "77".toList) "nofile".toList).2.2.2.1 rfl,
    (readen_exit_or_value (fileWorld [] "77".toList) "empty".toList).2.2.2.2 [] rfl,
    (readen_exit_or_value (fileWorld "5\n".toList "77".toList) "five".toList).2.2.2.2
      "5\n".toList rfl⟩

/-- C8: every call ends on one of the two exit paths, and on both nothing
stays held. When the open succeeds `readen` returns, and its trace is exactly
open, allocate, free, close: the buffer, which is not `NULL`, is freed, the
stream is closed once, as the last action, and no handle or buffer remains;
this holds on the empty file too. When the open fails the process exits and
nothing was acquired. -/
theorem readen_releases_resources (w : World) (path : List Char) :
    (readen w path).outcome ≠ Outcome.undefined ∧
    (∀ c, w.fopen path = some c →
      (∃ v, (readen w path).outcome = Outcome.returned v) ∧
      (readen w path).trace = [Event.fopen, Event.alloc, Event.free, Event.fclose]) ∧
    (∀ v, (readen w path).outcome = Outcome.returned v →
      (readen w path).trace = [Event.fopen, Event.alloc, Event.free, Event.fclose] ∧
      openHandles (readen w path).trace = 0 ∧ liveBuffers (readen w path).trace = 0 ∧
      (readen w path).trace.count Event.fclose = 1 ∧
      (readen w path).trace.count Event.free = 1) ∧
    (∀ s, (readen w path).outcome = Outcome.exited s →
      (readen w path).trace = [] ∧ w.fopen path = none ∧
      openHandles (readen w path).trace = 0 ∧ liveBuffers (readen w path).trace = 0) := by
  have hcount : openHandles [Event.fopen, Event.alloc, Event.free, Event.fclose] = 0 ∧
      liveBuffers [Event.fopen, Event.alloc, Event.free, Event.fclose] = 0 ∧
      [Event.fopen, Event.alloc, Event.free, Event.fclose].count Event.fclose = 1 ∧
      [Event.fopen, Event.alloc, Event.free, Event.fclose].count Event.free = 1 := by
    decide
  have hnil : openHandles [] = 0 ∧ liveBuffers [] = 0 := by decide
  cases hopen : w.fopen path with
  | none =>
    have h : readen w path = ⟨Outcome.exited EXIT_FAILURE, []⟩ := by
      simp only [readen, hopen]
    rw [h]
    exact ⟨by simp, fun c hc => Option.noConfusion hc, fun v hv => by simp at hv,
      fun s _ => ⟨rfl, rfl, hnil⟩⟩
  | some fd =>
    have h : ∃ v, readen w path = ⟨Outcome.returned v,
        [Event.fopen, Event.alloc, Event.free, Event.fclose]⟩ := by
      by_cases hfd : fd = []
      · subst hfd
        exact ⟨_, readen_empty w path hopen⟩
      · exact ⟨_, readen_nonempty w path fd hopen hfd⟩
    obtain ⟨v, hv⟩ := h
    rw [hv]
    exact ⟨by simp, fun c _ => ⟨⟨v, rfl⟩, rfl⟩, fun u _ => ⟨rfl, hcount⟩,
      fun s hs => by simp at hs⟩

theorem readen_releases_resources_witness :
    ((∃ v, (readen (fileWorld [] "77".toList) []).outcome = Outcome.returned v) ∧
      (readen (fileWorld [] "77".toList) []).trace
        = [Event.fopen, Event.alloc, Event.free, Event.fclose]) ∧
    ((readen (fileWorld "1\n42\n".toList "77".toList) []).trace
        = [Event.fopen, Event.alloc, Event.free, Event.fclose] ∧
      openHandles (readen (fileWorld "1\n42\n".toList "77".toList) []).trace = 0 ∧
      liveBuffers (readen (fileWorld "1\n42\n".toList "77".toList) []).trace = 0 ∧
      (readen (fileWorld "1\n42\n".toList "77".toList) []).trace.count Event.fclose = 1 ∧
      (readen (fileWorld "1\n42\n".toList "77".toList) []).trace.count Event.free = 1) ∧
    ((readen (noFileWorld "77".toList) []).trace = [] ∧
      (noFileWorld "77".toList).fopen [] = none ∧
      openHandles (readen (noFileWorld "77".toList) []).trace = 0 ∧
      liveBuffers (readen (noFileWorld "77".toList) []).trace = 0) :=
  ⟨(readen_releases_resources (fileWorld [] "77".toList) []).2.1 [] rfl,
    (readen_releases_resources (fileWorld "1\n42\n".toList "77".toList) []).2.2.1 42
      (by decide),
    (readen_releases_resources (noFileWorld "77".toList) []).2.2.2 EXIT_FAILURE (by decide)⟩

/-- C9: overflow saturates. A last line made of optional white space and an
unsigned digit run of value at least `2 ^ 64` (followed by nothing or by a
byte that is not a digit) makes `readen` return `2 ^ 64 - 1`. -/
theorem readen_overflow_saturates (w : World) (path p ws ds t : List Char)
    (hopen : w.fopen path = some (p ++ (ws ++ ds ++ t)))
    (hp : CompleteLines p) (hl : IsLine (ws ++ ds ++ t))
    (hws : ∀ c ∈ ws, isspace c = true) (hne : ds ≠ [])
    (hd : ∀ c ∈ ds, isdigit c = true) (ht : NoDigitAhead t)
    (hv : 2 ^ 64 ≤ decimalValue ds) :
    (readen w path).outcome = Outcome.returned (2 ^ 64 - 1) := by
  rw [readen_unsigned w path p ws ds t hopen hp hl hws hne hd ht, if_pos hv]
  rfl

theorem readen_overflow_saturates_witness :
    2 ^ 64 ≤ decimalValue "18446744073709551616".toList ∧
    (readen (fileWorld ("1\n".toList ++ (" ".toList ++ "18446744073709551616".toList
        ++ "\n".toList)) "77".toList) []).outcome = Outcome.returned (2 ^ 64 - 1) :=
  ⟨by decide,
    readen_overflow_saturates
      (fileWorld ("1\n".toList ++ (" ".toList ++ "18446744073709551616".toList
        ++ "\n".toList)) "77".toList) [] "1\n".toList " ".toList
      "18446744073709551616".toList "\n".toList rfl (by decide) (by decide) (by decide)
      (by decide) (by decide) (by decide) (by decide)⟩

/-- C10: a sign before the digits is accepted. A last line made of optional
white space, `+` or `-`, and a non-empty digit run of value `V` below `2 ^ 64`
(followed by nothing or by a byte that is not a digit) makes `readen` return
`V` for `+` and `(2 ^ 64 - V) % 2 ^ 64` for `-`. -/
theorem readen_signed (w : World) (path p ws ds t : List Char) (sign : Char)
    (hopen : w.fopen path = some (p ++ (ws ++ sign :: ds ++ t)))
    (hp : CompleteLines p) (hl : IsLine (ws ++ sign :: ds ++ t))
    (hws : ∀ c ∈ ws, isspace c = true) (hs : sign = '+' ∨ sign = '-')
    (hne : ds ≠ []) (hd : ∀ c ∈ ds, isdigit c = true) (ht : NoDigitAhead t)
    (hv : decimalValue ds < 2 ^ 64) :
    (readen w path).outcome = Outcome.returned
      (if sign = '-' then (2 ^ 64 - decimalValue ds) % 2 ^ 64 else decimalValue ds) := by
  rw [readen_with_sign w path p ws ds t sign hopen hp hl hws hs hne hd ht,
    if_neg (by omega)]

theorem readen_signed_witness :
    (readen (fileWorld ("3\n".toList ++ ("".toList ++ '-' :: "1".toList ++ "\n".toList))
        "77".toList) []).outcome
      = Outcome.returned
        (if '-' = '-' then (2 ^ 64 - decimalValue "1".toList) % 2 ^ 64
          else decimalValue "1".toList) ∧
    (if '-' = '-' then (2 ^ 64 - decimalValue "1".toList) % 2 ^ 64
      else decimalValue "1".toList) = 2 ^ 64 - 1 :=
  ⟨readen_signed
      (fileWorld ("3\n".toList ++ ("".toList ++ '-' :: "1".toList ++ "\n".toList)) "77".toList)
      [] "3\n".toList "".toList "1".toList "\n".toList '-' rfl (by decide) (by decide)
      (by decide) (Or.inr rfl) (by decide) (by decide) (by decide) (by decide),
    by decide⟩

end Pyperf
